import Mathlib

/-!
Verification of the `nesteddict` hierarchical key/value store
(`src/nesteddict/__init__.py`, class `NestedDictFS`) against its
natural-language specification.

The filesystem is modelled as a tree of nodes: a regular file with raw byte
content, or a directory with named children kept in their raw on-disk
(creation) order, as returned by `os.listdir` before any sorting.  Every node
carries a `stat` fingerprint (a snapshot of `os.stat` metadata: size, mtime,
inode); mutations stamp touched nodes with a global clock drawn from the
system state.  Keys are lists of string segments; a handle's `data_path` is a
list of segments from the filesystem root.  The external `lru.LRU` cache is
modelled as an association list from resolved paths to `(stat, value)` pairs;
its capacity/eviction behaviour belongs to the external library and is not
modelled.  The pluggable store engine (`store_engines.get_store_engine`) and
`gzip` are external capabilities, modelled as encode/decode and
compress/decompress functions carried in an environment.
-/

namespace NDFS

/-- Raw file contents (the unit of a "byte" is irrelevant to the claims). -/
abbrev Bytes := List Nat

/-- A key: an ordered list of path segments (Python passes tuples of `str`;
`_internal_verify_item` coerces scalars to one-element tuples, which the
embedding represents directly as a list). -/
abbrev Key := List String

/-- A filesystem node: a regular file or a directory.  Children are kept in
raw directory order (the unsorted `os.listdir` order).  `stat` is the
metadata fingerprint compared by the stat-validated cache. -/
inductive Node : Type where
  | file (stat : Nat) (content : Bytes)
  | dir (stat : Nat) (children : List (String × Node))

/-- `os.path.isfile`. -/
def Node.isFile : Node → Bool
  | .file .. => true
  | .dir .. => false

/-- `os.path.isdir`. -/
def Node.isDir : Node → Bool
  | .file .. => false
  | .dir .. => true

/-- The metadata fingerprint of a node (`os.stat` snapshot). -/
def Node.statOf : Node → Nat
  | .file st _ => st
  | .dir st _ => st

/-- First binding of a name in a raw children list (directory entries have
unique names, which every operation below preserves). -/
def lookupChild : List (String × Node) → String → Option Node
  | [], _ => none
  | (k, v) :: rest, s => if k = s then some v else lookupChild rest s

/-- Replace the binding of `s` in place (or append a fresh entry at the end:
newly created directory entries show up at the end of the raw order). -/
def setChild : List (String × Node) → String → Node → List (String × Node)
  | [], s, n => [(s, n)]
  | (k, v) :: rest, s, n => if k = s then (s, n) :: rest else (k, v) :: setChild rest s n

/-- Remove every binding of `s` (directory entries are unique, so this is
the deletion of the single entry named `s`). -/
def removeChild : List (String × Node) → String → List (String × Node)
  | [], _ => []
  | (k, v) :: rest, s => if k = s then removeChild rest s else (k, v) :: removeChild rest s

/-- Resolve a path below a node: `none` when the path does not exist
(including when a strict ancestor is a regular file). -/
def Node.find? : Node → Key → Option Node
  | n, [] => some n
  | .file .., _ :: _ => none
  | .dir _ cs, s :: rest =>
    match lookupChild cs s with
    | none => none
    | some c => c.find? rest

/-- Generic path editor: descend through existing directories to the parent
of `p`, then transform the entry named by `p`'s last segment.  `f` receives
the current entry and returns `none` for an OS error, `some none` to delete
the entry, or `some (some n)` to (re)bind it.  `none` overall is an OS-level
failure (missing or non-directory component, or `f` refusing). -/
def Node.editAt : Node → Key → (Option Node → Option (Option Node)) → Option Node
  | _, [], _ => none
  | .file .., _ :: _, _ => none
  | .dir st cs, [s], f =>
    match f (lookupChild cs s) with
    | none => none
    | some none => some (.dir st (removeChild cs s))
    | some (some n) => some (.dir st (setChild cs s n))
  | .dir st cs, s :: r :: rest, f =>
    match lookupChild cs s with
    | none => none
    | some c => (c.editAt (r :: rest) f).map (fun c2 => .dir st (setChild cs s c2))

/-- `os.makedirs(path, exist_ok=True)`: create every missing directory on the
path; fail on a non-directory component.  Fresh directories are stamped with
the current clock. -/
def Node.makedirs : Node → Key → Nat → Option Node
  | n, [], _ => if n.isDir then some n else none
  | .file .., _ :: _, _ => none
  | .dir st cs, s :: rest, clk =>
    match (lookupChild cs s).getD (.dir clk []) |>.makedirs rest clk with
    | none => none
    | some c2 => some (.dir st (setChild cs s c2))

/-- Open for write (`'wb'`) or append (`'ab'`) and write `data`
(`NestedDictFS._internal_write`): creates or overwrites a regular file, in
append mode extending the existing bytes (a further compressed member is
written after the current ones).  Fails on a directory target or a missing
parent. -/
def Node.writeFile (n : Node) (p : Key) (data : Bytes) (append : Bool) (clk : Nat) : Option Node :=
  n.editAt p (fun old =>
    match old with
    | some (.dir ..) => none
    | some (.file _ oldc) => some (some (.file clk (if append then oldc ++ data else data)))
    | none => some (some (.file clk data)))

/-- `os.remove` / `shutil.rmtree`: unlink the entry at `p` whatever it is. -/
def Node.removeAt (n : Node) (p : Key) : Option Node :=
  n.editAt p (fun old =>
    match old with
    | none => none
    | some _ => some none)

/-- Bind the node `m` at path `p`, overwriting any existing entry (the final
step of `shutil.move` / `shutil.copy` / `shutil.copytree`). -/
def Node.placeAt (n : Node) (p : Key) (m : Node) : Option Node :=
  n.editAt p (fun _ => some (some m))

mutual
/-- Refresh every stat in a subtree: `shutil.copy`/`copytree` produce new
inodes, so the copies carry fresh metadata fingerprints. -/
def Node.restamp (clk : Nat) : Node → Node
  | .file _ c => .file clk c
  | .dir _ cs => .dir clk (restampChildren clk cs)

/-- Pointwise `Node.restamp` over a children list. -/
def restampChildren (clk : Nat) : List (String × Node) → List (String × Node)
  | [] => []
  | (k, n) :: rest => (k, Node.restamp clk n) :: restampChildren clk rest
end

/-- The exceptions raised by `NestedDictFS` (`nesteddict/errors.py`), plus
`valueError` for plain `ValueError`s and `osError` for errors surfaced from
the OS / `shutil` layer. -/
inductive Err : Type where
  | accessViolation      -- NDAccessViolation
  | noSuchKey            -- NDKeyError.Type.NO_SUCH_KEY
  | invalidKey           -- NDKeyError.Type.INVALID_KEY
  | noSearchTerm         -- NDKeyError.Type.NO_SEARCH_TERM
  | notIncludeChild      -- NDLookupError.Type.NOT_INCLUDE_CHILD
  | notIncludeData       -- NDLookupError.Type.NOT_INCLUDE_DATA
  | dataSubItem          -- NDLookupError.Type.DATA_SUB_ITEM
  | setDataOverChild     -- NDLookupError.Type.SET_DATA_OVER_CHILD
  | setChildOverData     -- NDLookupError.Type.SET_CHILD_OVER_DATA
  | setChildOverChild    -- NDLookupError.Type.SET_CHILD_OVER_CHILD
  | valueError           -- builtin ValueError
  | osError              -- OSError / shutil.Error propagated as-is
deriving DecidableEq

/-- Decoded leaf values.  The store is value-polymorphic in Python; a small
closed universe suffices for the claims, which never inspect values. -/
inductive Value : Type where
  | int (n : Int)
  | str (s : String)
deriving DecidableEq

/-- A store handle (`NestedDictFS.__slots__` minus the derived
`writable`/`write_method`/`read_method` fields, which are functions of
`mode` and `store_engine`).  The shared `lru.LRU` cache object is shared by
reference in Python; `cacheId` records that object identity, while the cache
contents are threaded explicitly through the operations below. -/
structure Handle : Type where
  dataPath : Key
  mode : String
  storeEngine : String
  compressLevel : Nat
  cacheId : Nat
deriving DecidableEq

/-- `k in s` for a character (Python `in` on strings, used for
`os.path.sep in k` and `'w' in mode`). -/
def strHasChar (s : String) (c : Char) : Bool := s.data.contains c

/-- `self.writable = any(k in mode for k in 'wc')`. -/
def Handle.writable (h : Handle) : Bool := strHasChar h.mode 'w' || strHasChar h.mode 'c'

/-- `compress_level` default of `NestedDictFS.__init__`. -/
def defaultCompressLevel : Nat := 9

/-- `NestedDictFS.__init__` when `data_path` is an existing `NestedDictFS`
object: the new handle copies the parent's path, cache object, store engine
and compression level (only `mode` is taken from the argument). -/
def Handle.fromParent (parent : Handle) (mode : String) : Handle :=
  { dataPath := parent.dataPath, mode := mode, storeEngine := parent.storeEngine,
    compressLevel := parent.compressLevel, cacheId := parent.cacheId }

/-- `NestedDictFS._internal_get_child`: construct the child handle by path.
It passes `mode` (or `'c'` when creating), `shared_cache=self.cache` and
`store_engine=self.store_engine` — and nothing else, so `compress_level`
falls back to the constructor default `9` instead of the parent's level. -/
def Handle.internalGetChild (h : Handle) (itemPath : Key) (create : Bool) : Handle :=
  { dataPath := itemPath,
    mode := if create then "c" else h.mode,
    storeEngine := h.storeEngine,
    compressLevel := defaultCompressLevel,
    cacheId := h.cacheId }

/-- A pluggable store engine: `(write_method, read_method)` as resolved by
`store_engines.get_store_engine`.  Encoding is to raw bytes; decoding is
fallible (a decode error propagates as an exception). -/
structure Engine : Type where
  enc : Value → Bytes
  dec : Bytes → Option Value

/-- The external capabilities: the store-engine registry and the `gzip`
compress/decompress transform (level `0` bypasses it entirely, matching
`_internal_open`). -/
structure Env : Type where
  engines : String → Engine
  comp : Nat → Bytes → Bytes
  decomp : Bytes → Option Bytes

/-- The engine a handle resolves at construction. -/
def Env.engineFor (env : Env) (h : Handle) : Engine := env.engines h.storeEngine

/-- `_internal_write` for a fresh file: encode, then compress unless
`compress_level == 0`. -/
def encodeForFile (env : Env) (h : Handle) (v : Value) : Bytes :=
  if h.compressLevel = 0 then (env.engineFor h).enc v
  else env.comp h.compressLevel ((env.engineFor h).enc v)

/-- `_internal_read`: decompress unless `compress_level == 0`, then decode. -/
def decodeFromFile (env : Env) (h : Handle) (b : Bytes) : Option Value :=
  if h.compressLevel = 0 then (env.engineFor h).dec b
  else (env.decomp b).bind (env.engineFor h).dec

/-- What the shared cache stores for a path: the decoded leaf value or the
child `NestedDictFS` handle, as produced by `_internal_get_direct`. -/
inductive CVal : Type where
  | value (v : Value)
  | child (h : Handle)
deriving DecidableEq

/-- The shared `lru.LRU` cache: resolved path ↦ (stat fingerprint, value).
Capacity and LRU eviction order belong to the external `lru` library and do
not affect any lookup result, so they are not modelled. -/
abbrev Cache := List (Key × Nat × CVal)

/-- `self.cache.get(item_path, ...)` (first binding of the path). -/
def cacheGet : Cache → Key → Option (Nat × CVal)
  | [], _ => none
  | (k, e) :: rest, p => if k = p then some e else cacheGet rest p

/-- `del self.cache[item_path]` (entries are unique per path). -/
def cacheDel : Cache → Key → Cache
  | [], _ => []
  | (k, e) :: rest, p => if k = p then cacheDel rest p else (k, e) :: cacheDel rest p

/-- `self.cache[item_path] = entry`: rebind in place or add. -/
def cacheSet : Cache → Key → Nat × CVal → Cache
  | [], p, e => [(p, e)]
  | (k, e0) :: rest, p, e => if k = p then (p, e) :: rest else (k, e0) :: cacheSet rest p e

/-- The whole mutable world: the mutation clock used to stamp fresh stats,
the filesystem root directory, and the (shared) cache contents. -/
structure Sys : Type where
  clock : Nat
  root : Node
  cache : Cache

/-- `os.stat(path)` as an `Option` (`FileNotFoundError` ↦ `none`). -/
def statAt (root : Node) (p : Key) : Option Nat := (root.find? p).map Node.statOf

/-- A segment is valid unless it is `'.'`, `'..'`, or contains the path
separator (`_internal_verify_item`).  The empty segment is accepted by the
Python code as well; theorems that need path-algebra faithfulness add the
non-empty-segment hypothesis explicitly, since `os.path.join` collapses
empty components. -/
def validSegment (s : String) : Bool :=
  ¬ (s = "." ∨ s = ".." ∨ strHasChar s '/')

/-- The loop `for i in range(1, len(item)): if os.path.isfile(item[:i]): ...`
of `_internal_verify_item`: some strict non-empty ancestor of the key
resolves to a regular file. -/
def hasFileAncestor (root : Node) (base : Key) (item : Key) : Bool :=
  (List.range item.length).any fun i =>
    1 ≤ i && (root.find? (base ++ item.take i)).elim false Node.isFile

/-- `NestedDictFS._internal_verify_item` for a concrete (non-search) key:
reject malformed segments with `INVALID_KEY`, then reject keys one of whose
strict ancestors is currently a leaf with `DATA_SUB_ITEM`. -/
def Handle.verifyItem (h : Handle) (root : Node) (item : Key) : Except Err Key :=
  if item.any fun s => ¬ validSegment s then .error .invalidKey
  else if hasFileAncestor root h.dataPath item then .error .dataSubItem
  else .ok item

/-- `NestedDictFS.key_path`: verify, then `os.path.join(self.data_path, *item)`. -/
def Handle.keyPath (h : Handle) (root : Node) (item : Key) : Except Err Key :=
  (h.verifyItem root item).map fun it => h.dataPath ++ it

/-- What a get returns: a decoded leaf value, a child handle, or the
caller's `default_value` sentinel.  `dflt` tracks the Python identity test
`ret_value is default_value`: only the `return default_value` fall-through
produces it. -/
inductive GotVal : Type where
  | value (v : Value)
  | child (h : Handle)
  | dflt
deriving DecidableEq

/-- The cached value as a get result. -/
def CVal.toGot : CVal → GotVal
  | .value v => .value v
  | .child h => .child h

/-- `NestedDictFS._internal_get_direct`: classify the resolved path as
directory / file / absent.  A directory yields a child handle; a file yields
the decoded value; absence yields creation (lazy — the directory itself is
only created by later writes), a `NoSuchKey` error, or the default. -/
def Handle.internalGetDirect (h : Handle) (env : Env) (root : Node) (itemPath : Key)
    (raiseErr includeChild includeData createChild : Bool) : Except Err GotVal :=
  let includeChild := includeChild || createChild
  match root.find? itemPath with
  | some (.dir ..) =>
    if ¬ includeChild then .error .notIncludeChild
    else .ok (.child (h.internalGetChild itemPath false))
  | some (.file _ content) =>
    if ¬ includeData then .error .notIncludeData
    else
      match decodeFromFile env h content with
      | some v => .ok (.value v)
      | none => .error .osError
  | none =>
    if createChild then
      if h.writable then .ok (.child (h.internalGetChild itemPath true))
      else .error .accessViolation
    else if raiseErr then .error .noSuchKey
    else .ok .dflt

/-- The final `is_child` checks of `_internal_get_cached`: note they test the
caller's original `include_child`, not the `create_child`-widened one used
by `_internal_get_direct`. -/
def finalIncludeCheck (rv : GotVal) (includeChild includeValue : Bool) : Except Err GotVal :=
  match rv with
  | .child c => if ¬ includeChild then .error .notIncludeChild else .ok (.child c)
  | .value v => if ¬ includeValue then .error .notIncludeData else .ok (.value v)
  | .dflt => .ok .dflt

/-- The miss branch of `_internal_get_cached` (`ret_stat is None` after
validation): resolve directly, store `(cur_stat, ret_value)` when the path
currently has metadata and the value is not the default sentinel, then run
the final include checks.  The cache is returned even on an exception — the
Python cache is a shared object already mutated when the final checks
raise. -/
def Handle.internalGetMiss (h : Handle) (env : Env) (root : Node) (cache1 : Cache) (itemPath : Key)
    (raiseErr includeChild includeValue createChild : Bool) : Except Err GotVal × Cache :=
  match h.internalGetDirect env root itemPath raiseErr includeChild includeValue createChild with
  | .error e => (.error e, cache1)
  | .ok rv =>
    match rv, statAt root itemPath with
    | .dflt, _ => (finalIncludeCheck .dflt includeChild includeValue, cache1)
    | .value v, some st =>
      (finalIncludeCheck (.value v) includeChild includeValue,
        cacheSet cache1 itemPath (st, .value v))
    | .child c, some st =>
      (finalIncludeCheck (.child c) includeChild includeValue,
        cacheSet cache1 itemPath (st, .child c))
    | rv, none => (finalIncludeCheck rv includeChild includeValue, cache1)

/-- `NestedDictFS._internal_get_cached`: look up the cached
`(fingerprint, value)`; compare the fingerprint against a fresh `os.stat`
(absence included); on mismatch delete the entry and fall through to the
miss branch; on a validated hit return the cached value through the final
include checks.  (The LRU recency update performed by `cache.get` has no
observable effect without modelled capacity.) -/
def Handle.internalGetCached (h : Handle) (env : Env) (root : Node) (cache : Cache) (itemPath : Key)
    (raiseErr includeChild includeValue createChild : Bool) : Except Err GotVal × Cache :=
  match cacheGet cache itemPath with
  | some (st, cv) =>
    if statAt root itemPath = some st then
      (finalIncludeCheck cv.toGot includeChild includeValue, cache)
    else
      h.internalGetMiss env root (cacheDel cache itemPath) itemPath
        raiseErr includeChild includeValue createChild
  | none =>
    h.internalGetMiss env root cache itemPath raiseErr includeChild includeValue createChild

/-- `NestedDictFS.get_cached`: resolve the key; a key that resolves to the
handle's own root path returns `self`, bypassing the cache entirely. -/
def Handle.getCached (h : Handle) (env : Env) (root : Node) (cache : Cache) (item : Key)
    (raiseErr includeChild includeData createChild : Bool) : Except Err GotVal × Cache :=
  match h.keyPath root item with
  | .error e => (.error e, cache)
  | .ok itemPath =>
    if itemPath = h.dataPath then (.ok (.child h), cache)
    else h.internalGetCached env root cache itemPath raiseErr includeChild includeData createChild

/-- `NestedDictFS.get_direct` (public): skip the cache; a key resolving to
the handle's own root path returns `self`. -/
def Handle.getDirect (h : Handle) (env : Env) (root : Node) (item : Key)
    (raiseErr includeChild includeData createChild : Bool) : Except Err GotVal :=
  match h.keyPath root item with
  | .error e => .error e
  | .ok itemPath =>
    if itemPath = h.dataPath then .ok (.child h)
    else h.internalGetDirect env root itemPath raiseErr (includeChild || createChild) includeData
      createChild

/-- `NestedDictFS.get`: `get_cached(item, default, False, include, include, create)`
with all-default flags. -/
def Handle.get (h : Handle) (env : Env) (root : Node) (cache : Cache) (item : Key) :
    Except Err GotVal × Cache :=
  h.getCached env root cache item false true true false

/-- `NestedDictFS.get_child`: `get_cached(item, include_child=True,
include_data=False, create_child=True)`. -/
def Handle.getChild (h : Handle) (env : Env) (root : Node) (cache : Cache) (item : Key) :
    Except Err GotVal × Cache :=
  h.getCached env root cache item true true false true

/-- `NestedDictFS.get_data`: `get_cached(item, include_child=False,
include_data=True, create_child=False)`. -/
def Handle.getData (h : Handle) (env : Env) (root : Node) (cache : Cache) (item : Key) :
    Except Err GotVal × Cache :=
  h.getCached env root cache item true false true false

/-- `NestedDictFS.__getitem__`: `get_cached(item, None, True, True, True, False)`. -/
def Handle.getItem (h : Handle) (env : Env) (root : Node) (cache : Cache) (item : Key) :
    Except Err GotVal × Cache :=
  h.getCached env root cache item true true true false

/-- `NestedDictFS.exists`: `os.path.exists(self.key_path(item))` (key
verification errors propagate). -/
def Handle.existsItem (h : Handle) (root : Node) (item : Key) : Except Err Bool :=
  (h.keyPath root item).map fun p => (root.find? p).isSome

/-- The `value` argument of `put`: `isinstance(value, NestedDictFS)` is
rejected with a `ValueError`. -/
inductive PutArg : Type where
  | value (v : Value)
  | handle (h : Handle)

/-- `NestedDictFS._internal_put`: writable check, handle-value check, key
resolution, `SET_DATA_OVER_CHILD` when the target is a directory, parent
`makedirs`, explicit cache invalidation of the target path, then the
(optionally appending) encoded + compressed write. -/
def Handle.internalPut (h : Handle) (env : Env) (s : Sys) (item : Key) (arg : PutArg)
    (append : Bool) : Except Err Sys :=
  if ¬ h.writable then .error .accessViolation
  else match arg with
  | .handle _ => .error .valueError
  | .value v =>
    match h.keyPath s.root item with
    | .error e => .error e
    | .ok itemPath =>
      if (s.root.find? itemPath).elim false Node.isDir then .error .setDataOverChild
      else
        match s.root.makedirs itemPath.dropLast s.clock with
        | none => .error .osError
        | some root1 =>
          match root1.writeFile itemPath (encodeForFile env h v) append s.clock with
          | none => .error .osError
          | some root2 =>
            .ok { clock := s.clock + 1, root := root2, cache := cacheDel s.cache itemPath }

/-- `NestedDictFS._internal_delete`: writable check, key resolution, then
`shutil.rmtree` for a directory, `os.remove` for a file, and `NO_SUCH_KEY`
(unless ignored) for an absent target.  The cache is not touched. -/
def Handle.internalDelete (h : Handle) (s : Sys) (item : Key) (ignoreErrors : Bool) :
    Except Err Sys :=
  if ¬ h.writable then .error .accessViolation
  else match h.keyPath s.root item with
  | .error e => .error e
  | .ok curPath =>
    match s.root.find? curPath with
    | some _ =>
      match s.root.removeAt curPath with
      | none => .error .osError
      | some r => .ok { clock := s.clock + 1, root := r, cache := s.cache }
    | none => if ignoreErrors then .ok s else .error .noSuchKey

/-- The destination conflict checks of `_internal_copy_move`, against the
live filesystem: a file source must not land on an existing directory
(`SET_DATA_OVER_CHILD`); a directory source must not land on an existing
file (`SET_CHILD_OVER_DATA`) or non-empty directory
(`SET_CHILD_OVER_CHILD`), while an existing empty directory destination is
first removed with `shutil.rmtree`. -/
def copyMoveCheckDst (root : Node) (srcIsFile : Bool) (dstPath : Key) : Except Err Node :=
  if srcIsFile then
    match root.find? dstPath with
    | some (.dir ..) => .error .setDataOverChild
    | _ => .ok root
  else
    match root.find? dstPath with
    | some (.file ..) => .error .setChildOverData
    | some (.dir _ cs) =>
      if 0 < cs.length then .error .setChildOverChild
      else
        match root.removeAt dstPath with
        | none => .error .osError
        | some r => .ok r
    | none => .ok root

/-- `NestedDictFS._internal_copy_move`: writable check, key resolution of
both ends, `NO_SUCH_KEY` for an absent source, the conflict matrix checks
against the live filesystem, removal of an empty destination directory,
parent `makedirs`, then `shutil.move` / `shutil.copy` / `shutil.copytree`.
OS-level failures of those primitives (e.g. moving a directory into itself)
surface as `osError`.  The cache is not touched. -/
def Handle.internalCopyMove (h : Handle) (s : Sys) (src dst : Key) (move : Bool) :
    Except Err Sys :=
  if ¬ h.writable then .error .accessViolation
  else match h.keyPath s.root src with
  | .error e => .error e
  | .ok srcPath =>
  match h.keyPath s.root dst with
  | .error e => .error e
  | .ok dstPath =>
  match s.root.find? srcPath with
  | none => .error .noSuchKey
  | some srcN =>
    match copyMoveCheckDst s.root srcN.isFile dstPath with
    | .error e => .error e
    | .ok root1 =>
      match root1.makedirs dstPath.dropLast s.clock with
      | none => .error .osError
      | some root2 =>
        match root2.find? srcPath with
        | none => .error .osError
        | some sn =>
          if move then
            match root2.removeAt srcPath with
            | none => .error .osError
            | some root3 =>
              match root3.placeAt dstPath sn with
              | none => .error .osError
              | some root4 => .ok { clock := s.clock + 1, root := root4, cache := s.cache }
          else
            match root2.placeAt dstPath (sn.restamp s.clock) with
            | none => .error .osError
            | some root4 => .ok { clock := s.clock + 1, root := root4, cache := s.cache }

/-! ### Search / traversal engine -/

/-- Code-point comparison of characters, the order Python's `sorted` uses on
single characters. -/
def charLeNat (a b : Char) : Prop := a.toNat ≤ b.toNat

/-- Lexicographic code-point order on strings (Python's `str` order, which
`sorted(os.listdir(...))` applies). -/
def strLeAux : List Char → List Char → Bool
  | [], _ => true
  | _ :: _, [] => false
  | a :: as, b :: bs =>
    if a.toNat = b.toNat then strLeAux as bs else a.toNat < b.toNat

/-- String order used for sorting directory listings. -/
def strLe (a b : String) : Bool := strLeAux a.data b.data

/-- Insert into a sorted list (the model of Python's stable `sorted`). -/
def insertSorted (s : String) : List String → List String
  | [] => [s]
  | t :: rest => if strLe s t then s :: t :: rest else t :: insertSorted s rest

/-- `sorted(names)`. -/
def sortStrings : List String → List String
  | [] => []
  | s :: rest => insertSorted s (sortStrings rest)

/-- `NestedDictFS._internal_list_dir` at an arbitrary path:
`sorted(os.listdir(path))` when the path is a directory, else `[]`. -/
def internalListDir (root : Node) (p : Key) : List String :=
  match root.find? p with
  | some (.dir _ cs) => sortStrings (cs.map Prod.fst)
  | _ => []

/-- `NestedDictFS._internal_path_exists`. -/
def pathExists (root : Node) (p : Key) (includeChild includeData : Bool) : Bool :=
  (includeData && (root.find? p).elim false Node.isFile) ||
    (includeChild && (root.find? p).elim false Node.isDir)

/-- `NestedDictFS._internal_keys`: the sorted listing filtered by the
include flags, paired with each entry's absolute path. -/
def internalKeys (root : Node) (p : Key) (includeChild includeData : Bool) :
    List (String × Key) :=
  ((internalListDir root p).filter fun k =>
      pathExists root (p ++ [k]) includeChild includeData).map
    fun k => (k, p ++ [k])

mutual
/-- One `os.walk` directory visit flattened the way `_internal_walk` flattens
it: this directory's subdirectory names (raw `os.listdir` order, no
sorting), then its file names, then the walks of the subdirectories in the
same raw order (`topdown=True`). -/
def walkNode (includeChild includeData : Bool) : Node → List Key
  | .file .. => []
  | .dir _ cs =>
    (if includeChild then
        cs.filterMap fun p => if p.2.isDir then some [p.1] else none
      else []) ++
    (if includeData then
        cs.filterMap fun p => if p.2.isFile then some [p.1] else none
      else []) ++
    walkChildren includeChild includeData cs

/-- The recursive part of `walkNode` over the raw children list. -/
def walkChildren (includeChild includeData : Bool) : List (String × Node) → List Key
  | [] => []
  | (k, n) :: rest =>
    (if n.isDir then (walkNode includeChild includeData n).map (k :: ·) else []) ++
      walkChildren includeChild includeData rest
end

/-- `NestedDictFS._internal_walk` (the `nesteddict` version): yield the
handle's own root `()` first when `include_child` is set, then every
descendant in `os.walk` order with keys relative to the handle. -/
def internalWalk (root : Node) (dataPath : Key) (includeChild includeData : Bool) :
    List (Key × Key) :=
  (if includeChild then [(([] : Key), dataPath)] else []) ++
    match root.find? dataPath with
    | some n => (walkNode includeChild includeData n).map fun k => (k, dataPath ++ k)
    | none => []

/-- A search token: `slice(None)` (wildcard), `Ellipsis` (recursive
descent), or a compiled regular-expression pattern, modelled by its `match`
predicate on a segment. -/
inductive SToken : Type where
  | wild
  | recur
  | pat (f : String → Bool)

/-- One element of a search key: a concrete segment or a token. -/
inductive SKeyElem : Type where
  | seg (s : String)
  | tok (t : SToken)

/-- A run produced by `_split_list_by_search_type`: a maximal non-empty
block of concrete segments, or a single token. -/
inductive Run : Type where
  | segs (ks : List String)
  | tok (t : SToken)

/-- `NestedDictFS._split_list_by_search_type`: split the verified search key
into alternating concrete runs and tokens (empty runs are skipped). -/
def splitBySearchType (l : List SKeyElem) : List Run :=
  let step := fun (acc : List Run × List String) (e : SKeyElem) =>
    match e with
    | .seg s => (acc.1, acc.2 ++ [s])
    | .tok t =>
      (acc.1 ++ (if acc.2.isEmpty then [] else [Run.segs acc.2]) ++ [Run.tok t], [])
  let fin := l.foldl step ([], [])
  fin.1 ++ if fin.2.isEmpty then [] else [Run.segs fin.2]

/-- `_internal_verify_item(item, is_search_key=True)`: validate the concrete
segments only; tokens pass through and no ancestor check is performed. -/
def verifySearchKey (item : List SKeyElem) : Except Err (List SKeyElem) :=
  if item.any fun e => match e with | .seg s => ¬ validSegment s | .tok _ => false then
    .error .invalidKey
  else .ok item

/-- Expansion of one run of the search loop at one queue entry, producing
the joined keys in yielded order.  `childPath` is the `get_child(pre_k)`
handle's path (`self.data_path ++ pre_k`); the cache interaction of that
`get_child` call cannot change the produced keys for a well-formed cache and
is not modelled.  The include flags are the loop's `search_kwargs`. -/
def expandRun (root : Node) (childPath preK : Key) (includeChild includeData : Bool) :
    Run → List Key
  | .segs ks =>
    if pathExists root (childPath ++ ks) includeChild includeData then [preK ++ ks] else []
  | .tok .wild =>
    (internalKeys root childPath includeChild includeData).map fun p => preK ++ [p.1]
  | .tok (.pat f) =>
    ((internalKeys root childPath includeChild includeData).filter fun p => f p.1).map
      fun p => preK ++ [p.1]
  | .tok .recur =>
    (internalWalk root childPath includeChild includeData).map fun p => preK ++ p.1

/-- The breadth-first queue loop of `NestedDictFS.search`, level by level:
the FIFO queue processes every entry of one run-depth before any entry of
the next, so it is equivalent to expanding a whole frontier per run.
Non-final runs expand with `include_child=True, include_data=False`
(subtrees are needed to continue); the final run expands with the caller's
flags and its expansions are the yielded keys, in order. -/
def searchFrontier (root : Node) (base : Key) (includeChild includeData : Bool) :
    List Run → List Key → List Key
  | [], _ => []
  | [r], frontier =>
    frontier.flatMap fun preK => expandRun root (base ++ preK) preK includeChild includeData r
  | r :: r2 :: rest, frontier =>
    searchFrontier root base includeChild includeData (r2 :: rest)
      (frontier.flatMap fun preK => expandRun root (base ++ preK) preK true false r)

/-- The key as `_yield_item` projects it with `yield_values=False`: a
one-segment key is unwrapped to the bare segment, anything else stays a
tuple (including the empty tuple). -/
inductive KeyOut : Type where
  | one (s : String)
  | many (k : Key)
deriving DecidableEq

/-- `if len(item) == 1: item = item[0]` of `_yield_item`. -/
def yieldKey : Key → KeyOut
  | [x] => .one x
  | k => .many k

/-- `NestedDictFS.search` (the `nesteddict` version) under the
`yield_keys=True, yield_values=False` projection, which touches neither the
engine nor the cache: verify the search key; an empty key yields exactly one
result, the handle's own root; otherwise run the queue loop. -/
def Handle.searchKeys (h : Handle) (root : Node) (item : List SKeyElem)
    (includeChild includeData : Bool) : Except Err (List KeyOut) :=
  match verifySearchKey item with
  | .error e => .error e
  | .ok it =>
    if it.length = 0 then .ok [yieldKey []]
    else
      .ok ((searchFrontier root h.dataPath includeChild includeData
        (splitBySearchType it) [[]]).map yieldKey)

/-- The `nested_dict_fs` variant of `search` differs at the empty key: it
raises `ValueError("Search term must be with at least one criteria.")`
unconditionally instead of yielding the root. -/
def Handle.searchKeysVariant (h : Handle) (root : Node) (item : List SKeyElem)
    (includeChild includeData : Bool) : Except Err (List KeyOut) :=
  match verifySearchKey item with
  | .error e => .error e
  | .ok it =>
    if it.length = 0 then .error .valueError
    else
      .ok ((searchFrontier root h.dataPath includeChild includeData
        (splitBySearchType it) [[]]).map yieldKey)

/-- `a` is an ancestor of `b` or equal to it, as paths: `b` starts with the
segments of `a`. -/
def leadsTo (a b : Key) : Prop := b.take a.length = a

/-! ### Concrete instances used by witnesses and counterexamples

A toy but injective store engine and an invertible compression transform,
plus some small filesystems.  `testComp` prepends the level as a header so
that compressed bytes are visibly distinct from plain ones. -/

/-- A concrete store engine for witnesses: a tag byte, then the payload. -/
def testEngine : Engine where
  enc := fun v =>
    match v with
    | .int n => [if n < 0 then 1 else 0, n.natAbs]
    | .str s => 2 :: s.data.map Char.toNat
  dec := fun b =>
    match b with
    | [0, m] => some (.int m)
    | [1, m] => some (.int (-(m : Int)))
    | 2 :: cs => some (.str ⟨cs.map Char.ofNat⟩)
    | _ => none

/-- A concrete environment: every engine name resolves to `testEngine`;
compression prepends a level header. -/
def testEnv : Env where
  engines := fun _ => testEngine
  comp := fun lvl b => lvl :: b
  decomp := fun b => match b with | [] => none | _ :: t => some t

/-- A writable handle rooted at `/store`. -/
def hc : Handle :=
  { dataPath := ["store"], mode := "c", storeEngine := "msgpack-numpy",
    compressLevel := 9, cacheId := 0 }

/-- The same store opened read-only. -/
def hr : Handle :=
  { dataPath := ["store"], mode := "r", storeEngine := "msgpack-numpy",
    compressLevel := 9, cacheId := 0 }

/-- An empty store. -/
def fsEmpty : Node := .dir 0 [("store", .dir 1 [])]

/-- A store holding the leaf `a` (compressed `testEngine` bytes for
`int 7`) and the empty subtree `d`. -/
def fsAD : Node := .dir 0 [("store", .dir 1 [("a", .file 2 [9, 0, 7]), ("d", .dir 3 [])])]

/-- A store holding the subtree `s` (with one leaf `c`) and the empty
subtree `d`. -/
def fsSD : Node :=
  .dir 0 [("store", .dir 1 [("s", .dir 2 [("c", .file 3 [9, 0, 1])]), ("d", .dir 4 [])])]

/-- A store holding the subtree `a` with one empty subtree child `x`. -/
def fsAX : Node := .dir 0 [("store", .dir 1 [("a", .dir 2 [("x", .dir 3 [])])])]

/-- A store whose raw directory order is `b` before `a` (both empty
subtrees): `os.listdir` order is not sorted. -/
def fsBA : Node := .dir 0 [("store", .dir 1 [("b", .dir 2 []), ("a", .dir 3 [])])]

/-- A handle opened with `compress_level=0` (uncompressed store). -/
def hc0 : Handle :=
  { dataPath := ["store"], mode := "c", storeEngine := "msgpack",
    compressLevel := 0, cacheId := 7 }

/-- A cache holding a stale fingerprint (`99`) for the leaf `a` of `fsAD`
(whose current stat is `2`). -/
def cacheStale : Cache := [(["store", "a"], 99, .value (.int 3))]

/-- A cache holding the up-to-date entry for the leaf `a` of `fsAD`. -/
def cacheFresh : Cache := [(["store", "a"], 2, .value (.int 7))]

/-! ### Library of auxiliary lemmas -/

theorem lookupChild_setChild_self (cs : List (String × Node)) (s : String) (n : Node) :
    lookupChild (setChild cs s n) s = some n := by
  induction cs with
  | nil => simp [setChild, lookupChild]
  | cons kv rest ih =>
    obtain ⟨k, v⟩ := kv
    by_cases hk : k = s
    · simp [setChild, lookupChild, hk]
    · simp [setChild, lookupChild, hk, ih]

theorem lookupChild_setChild_ne (cs : List (String × Node)) (s t : String) (n : Node)
    (h : t ≠ s) : lookupChild (setChild cs s n) t = lookupChild cs t := by
  induction cs with
  | nil => simp [setChild, lookupChild, Ne.symm h]
  | cons kv rest ih =>
    obtain ⟨k, v⟩ := kv
    by_cases hk : k = s
    · subst hk
      simp [setChild, lookupChild, Ne.symm h]
    · simp only [setChild, if_neg hk, lookupChild, ih]

theorem lookupChild_removeChild_self (cs : List (String × Node)) (s : String) :
    lookupChild (removeChild cs s) s = none := by
  induction cs with
  | nil => simp [removeChild, lookupChild]
  | cons kv rest ih =>
    obtain ⟨k, v⟩ := kv
    by_cases hk : k = s <;> simp [removeChild, lookupChild, hk, ih]

theorem lookupChild_removeChild_ne (cs : List (String × Node)) (s t : String) (h : t ≠ s) :
    lookupChild (removeChild cs s) t = lookupChild cs t := by
  induction cs with
  | nil => simp [removeChild]
  | cons kv rest ih =>
    obtain ⟨k, v⟩ := kv
    by_cases hk : k = s
    · subst hk
      simp [removeChild, lookupChild, Ne.symm h, ih]
    · simp only [removeChild, if_neg hk, lookupChild, ih]

theorem setChild_eq_of_lookup (cs : List (String × Node)) (s : String) (n : Node)
    (h : lookupChild cs s = some n) : setChild cs s n = cs := by
  induction cs with
  | nil => simp [lookupChild] at h
  | cons kv rest ih =>
    obtain ⟨k, v⟩ := kv
    by_cases hk : k = s
    · subst hk
      simp [lookupChild] at h
      simp [setChild, h]
    · simp [lookupChild, hk] at h
      simp [setChild, hk, ih h]

@[simp] theorem Node.find?_nil (n : Node) : n.find? [] = some n := by cases n <;> rfl

theorem Node.find?_cons_dir (st : Nat) (cs : List (String × Node)) (s : String) (rest : Key) :
    (Node.dir st cs).find? (s :: rest) = (lookupChild cs s).bind (·.find? rest) := by
  cases h : lookupChild cs s <;> simp [Node.find?, h]

@[simp] theorem Node.find?_cons_file (st : Nat) (b : Bytes) (s : String) (rest : Key) :
    (Node.file st b).find? (s :: rest) = none := rfl

theorem Node.find?_append (n : Node) (p q : Key) :
    n.find? (p ++ q) = (n.find? p).bind (·.find? q) := by
  induction p generalizing n with
  | nil => simp
  | cons s rest ih =>
    cases n with
    | file st b => simp
    | dir st cs =>
      cases h : lookupChild cs s with
      | none => simp [Node.find?_cons_dir, h]
      | some c => simp [Node.find?_cons_dir, h, ih]

theorem Node.find?_ancestors {n : Node} {p : Key} {m : Node} (h : n.find? p = some m) :
    ∀ i, i < p.length → ∃ st cs, n.find? (p.take i) = some (.dir st cs) := by
  intro i hi
  have hsplit : p = p.take i ++ p.drop i := (List.take_append_drop i p).symm
  rw [hsplit, Node.find?_append] at h
  cases ha : n.find? (p.take i) with
  | none => rw [ha] at h; simp at h
  | some a =>
    rw [ha] at h
    simp at h
    cases a with
    | dir st cs => exact ⟨st, cs, rfl⟩
    | file st b =>
      cases hd : p.drop i with
      | nil =>
        have : p.length - i = 0 := by
          simpa [List.length_drop] using congrArg List.length hd
        omega
      | cons x xs => rw [hd] at h; simp at h

/-! Cache lemmas. -/

theorem cacheGet_cacheDel_self (c : Cache) (p : Key) : cacheGet (cacheDel c p) p = none := by
  induction c with
  | nil => simp [cacheDel, cacheGet]
  | cons kv rest ih =>
    obtain ⟨k, e⟩ := kv
    by_cases hk : k = p <;> simp [cacheDel, cacheGet, hk, ih]

theorem cacheGet_cacheDel_ne (c : Cache) (p q : Key) (h : q ≠ p) :
    cacheGet (cacheDel c p) q = cacheGet c q := by
  induction c with
  | nil => simp [cacheDel]
  | cons kv rest ih =>
    obtain ⟨k, e⟩ := kv
    by_cases hk : k = p
    · subst hk
      simp [cacheDel, cacheGet, Ne.symm h, ih]
    · simp only [cacheDel, if_neg hk, cacheGet, ih]

theorem cacheDel_eq_of_none (c : Cache) (p : Key) (h : cacheGet c p = none) :
    cacheDel c p = c := by
  induction c with
  | nil => simp [cacheDel]
  | cons kv rest ih =>
    obtain ⟨k, e⟩ := kv
    by_cases hk : k = p
    · subst hk; simp [cacheGet] at h
    · simp [cacheGet, hk] at h
      simp [cacheDel, hk, ih h]

theorem cacheGet_cacheSet_self (c : Cache) (p : Key) (e : Nat × CVal) :
    cacheGet (cacheSet c p e) p = some e := by
  induction c with
  | nil => simp [cacheSet, cacheGet]
  | cons kv rest ih =>
    obtain ⟨k, e0⟩ := kv
    by_cases hk : k = p <;> simp [cacheSet, cacheGet, hk, ih]

/-! `leadsTo` (ancestor-or-equal order on paths). -/

@[simp] theorem leadsTo_nil (b : Key) : leadsTo [] b := by simp [leadsTo]

@[simp] theorem leadsTo_refl (a : Key) : leadsTo a a := by simp [leadsTo]

theorem leadsTo_cons (x : String) (a b : Key) :
    leadsTo (x :: a) (x :: b) ↔ leadsTo a b := by
  simp [leadsTo, List.take_cons]

theorem not_leadsTo_cons_ne {x y : String} (a b : Key) (h : x ≠ y) :
    ¬ leadsTo (x :: a) (y :: b) := by
  intro hc
  unfold leadsTo at hc
  rw [List.length_cons, List.take_succ_cons] at hc
  injection hc with h1 h2
  exact h h1.symm

theorem not_leadsTo_cons_nil (x : String) (a : Key) : ¬ leadsTo (x :: a) [] := by
  simp [leadsTo]

theorem leadsTo_length_le {a b : Key} (h : leadsTo a b) : a.length ≤ b.length := by
  have := congrArg List.length h
  simp [List.length_take] at this
  omega

theorem leadsTo_trans {a b c : Key} (h1 : leadsTo a b) (h2 : leadsTo b c) : leadsTo a c := by
  have hab := leadsTo_length_le h1
  unfold leadsTo at *
  calc c.take a.length = (c.take b.length).take a.length := by
        rw [List.take_take, min_eq_left hab]
    _ = b.take a.length := by rw [h2]
    _ = a := h1

theorem leadsTo_take (b : Key) (i : Nat) : leadsTo (b.take i) b := by
  unfold leadsTo
  rw [List.length_take]
  rcases le_total i b.length with h | h
  · rw [min_eq_left h]
  · rw [min_eq_right h, List.take_length, List.take_of_length_le h]

theorem leadsTo_append (a q : Key) : leadsTo a (a ++ q) := by
  unfold leadsTo
  exact List.take_left a q

theorem eq_append_drop_of_leadsTo {a b : Key} (h : leadsTo a b) :
    b = a ++ b.drop a.length := by
  conv_lhs => rw [← List.take_append_drop a.length b]
  rw [h]

/-! `Node.editAt` toolkit. -/

theorem Node.find?_single (st : Nat) (cs : List (String × Node)) (s : String) :
    (Node.dir st cs).find? [s] = lookupChild cs s := by
  rw [Node.find?_cons_dir]
  cases lookupChild cs s <;> simp

@[simp] theorem Node.editAt_nil (n : Node) (f : Option Node → Option (Option Node)) :
    n.editAt [] f = none := by cases n <;> rfl

@[simp] theorem Node.editAt_file (st : Nat) (b : Bytes) (s : String) (tail : Key)
    (f : Option Node → Option (Option Node)) :
    (Node.file st b).editAt (s :: tail) f = none := by cases tail <;> rfl

theorem Node.editAt_self {n : Node} {p : Key} {f : Option Node → Option (Option Node)} {r : Node}
    (h : n.editAt p f = some r) :
    ∃ x, f (n.find? p) = some x ∧ r.find? p = x := by
  induction p generalizing n r with
  | nil => rw [Node.editAt_nil] at h; cases h
  | cons s tail ih =>
    cases n with
    | file st b => rw [Node.editAt_file] at h; cases h
    | dir st cs =>
      cases tail with
      | nil =>
        simp only [Node.editAt] at h
        split at h
        · cases h
        · rename_i heq
          cases h
          exact ⟨none, by rw [Node.find?_single]; exact heq,
            by rw [Node.find?_single, lookupChild_removeChild_self]⟩
        · rename_i m heq
          cases h
          exact ⟨some m, by rw [Node.find?_single]; exact heq,
            by rw [Node.find?_single, lookupChild_setChild_self]⟩
      | cons r0 rest =>
        simp only [Node.editAt] at h
        split at h
        · cases h
        · rename_i c heq
          cases hc : c.editAt (r0 :: rest) f with
          | none => rw [hc] at h; cases h
          | some c2 =>
            rw [hc] at h
            simp only [Option.map_some'] at h
            cases h
            obtain ⟨x, hfx, hfind⟩ := ih hc
            refine ⟨x, ?_, ?_⟩
            · rw [Node.find?_cons_dir, heq]
              simpa using hfx
            · rw [Node.find?_cons_dir, lookupChild_setChild_self]
              simpa using hfind

theorem Node.editAt_ancestors {n : Node} {p : Key} {f : Option Node → Option (Option Node)}
    {r : Node} (h : n.editAt p f = some r) :
    ∀ i, i < p.length →
      (∃ st cs, n.find? (p.take i) = some (.dir st cs)) ∧
      (∃ st cs, r.find? (p.take i) = some (.dir st cs)) := by
  induction p generalizing n r with
  | nil => rw [Node.editAt_nil] at h; cases h
  | cons s tail ih =>
    intro i hi
    cases n with
    | file st b => rw [Node.editAt_file] at h; cases h
    | dir st cs =>
      cases i with
      | zero =>
        cases tail with
        | nil =>
          simp only [Node.editAt] at h
          split at h
          · cases h
          · cases h; exact ⟨⟨st, cs, by simp⟩, ⟨st, removeChild cs s, by simp⟩⟩
          · cases h; rename_i m heq; exact ⟨⟨st, cs, by simp⟩, ⟨st, setChild cs s m, by simp⟩⟩
        | cons r0 rest =>
          simp only [Node.editAt] at h
          split at h
          · cases h
          · rename_i c heq
            cases hc : c.editAt (r0 :: rest) f with
            | none => rw [hc] at h; cases h
            | some c2 =>
              rw [hc] at h
              simp only [Option.map_some'] at h
              cases h
              exact ⟨⟨st, cs, by simp⟩, ⟨st, setChild cs s c2, by simp⟩⟩
      | succ j =>
        cases tail with
        | nil => simp at hi
        | cons r0 rest =>
          simp only [Node.editAt] at h
          split at h
          · cases h
          · rename_i c heq
            cases hc : c.editAt (r0 :: rest) f with
            | none => rw [hc] at h; cases h
            | some c2 =>
              rw [hc] at h
              simp only [Option.map_some'] at h
              cases h
              have hj : j < (r0 :: rest).length := by simpa using hi
              obtain ⟨⟨st1, cs1, h1⟩, ⟨st2, cs2, h2⟩⟩ := ih hc j hj
              refine ⟨⟨st1, cs1, ?_⟩, ⟨st2, cs2, ?_⟩⟩
              · rw [List.take_succ_cons, Node.find?_cons_dir, heq]
                simpa using h1
              · rw [List.take_succ_cons, Node.find?_cons_dir, lookupChild_setChild_self]
                simpa using h2

theorem Node.editAt_unchanged {n : Node} {p : Key} {f : Option Node → Option (Option Node)}
    {r : Node} (h : n.editAt p f = some r) :
    ∀ q, ¬ leadsTo p q → ¬ leadsTo q p → r.find? q = n.find? q := by
  induction p generalizing n r with
  | nil => rw [Node.editAt_nil] at h; cases h
  | cons s tail ih =>
    intro q hpq hqp
    cases n with
    | file st b => rw [Node.editAt_file] at h; cases h
    | dir st cs =>
      cases q with
      | nil => exact absurd (leadsTo_nil _) hqp
      | cons t qtail =>
        by_cases hts : t = s
        · subst hts
          cases tail with
          | nil =>
            exfalso
            apply hpq
            unfold leadsTo
            simp [List.take_succ_cons]
          | cons r0 rest =>
            simp only [Node.editAt] at h
            split at h
            · cases h
            · rename_i c heq
              cases hc : c.editAt (r0 :: rest) f with
              | none => rw [hc] at h; cases h
              | some c2 =>
                rw [hc] at h
                simp only [Option.map_some'] at h
                cases h
                rw [Node.find?_cons_dir, Node.find?_cons_dir, lookupChild_setChild_self, heq]
                simp only [Option.some_bind]
                exact ih hc qtail
                  (fun hx => hpq ((leadsTo_cons t (r0 :: rest) qtail).mpr hx))
                  (fun hx => hqp ((leadsTo_cons t qtail (r0 :: rest)).mpr hx))
        · have hlookup : ∀ cs2, lookupChild cs2 t = lookupChild cs t →
              (Node.dir st cs2).find? (t :: qtail) = (Node.dir st cs).find? (t :: qtail) := by
            intro cs2 hl
            rw [Node.find?_cons_dir, Node.find?_cons_dir, hl]
          cases tail with
          | nil =>
            simp only [Node.editAt] at h
            split at h
            · cases h
            · cases h
              exact hlookup _ (lookupChild_removeChild_ne cs s t hts)
            · cases h
              exact hlookup _ (lookupChild_setChild_ne cs s t _ hts)
          | cons r0 rest =>
            simp only [Node.editAt] at h
            split at h
            · cases h
            · rename_i c heq
              cases hc : c.editAt (r0 :: rest) f with
              | none => rw [hc] at h; cases h
              | some c2 =>
                rw [hc] at h
                simp only [Option.map_some'] at h
                cases h
                exact hlookup _ (lookupChild_setChild_ne cs s t _ hts)

theorem Node.editAt_succeeds {n : Node} {p : Key} {f : Option Node → Option (Option Node)}
    {x : Option Node}
    (hanc : ∀ i, i < p.length → ∃ st cs, n.find? (p.take i) = some (.dir st cs))
    (hne : p ≠ []) (hf : f (n.find? p) = some x) :
    ∃ r, n.editAt p f = some r := by
  induction p generalizing n with
  | nil => exact absurd rfl hne
  | cons s tail ih =>
    obtain ⟨st, cs, hn⟩ := hanc 0 (by simp)
    simp only [List.take_zero, Node.find?_nil, Option.some.injEq] at hn
    subst hn
    cases tail with
    | nil =>
      rw [Node.find?_single] at hf
      simp only [Node.editAt]
      rw [hf]
      cases x <;> exact ⟨_, rfl⟩
    | cons r0 rest =>
      obtain ⟨st1, cs1, h1⟩ := hanc 1 (by simp)
      rw [List.take_succ_cons, List.take_zero, Node.find?_single] at h1
      have hanc' : ∀ i, i < (r0 :: rest).length →
          ∃ st2 cs2, (Node.dir st1 cs1).find? ((r0 :: rest).take i) = some (.dir st2 cs2) := by
        intro i hi
        have := hanc (i + 1) (by simpa using hi)
        rwa [List.take_succ_cons, Node.find?_cons_dir, h1, Option.some_bind] at this
      have hf' : f ((Node.dir st1 cs1).find? (r0 :: rest)) = some x := by
        rwa [Node.find?_cons_dir, h1, Option.some_bind] at hf
      obtain ⟨r2, hr2⟩ := ih hanc' (by simp) hf'
      refine ⟨Node.dir st (setChild cs s r2), ?_⟩
      simp only [Node.editAt]
      rw [h1]
      show Option.map (fun c2 => Node.dir st (setChild cs s c2))
        ((Node.dir st1 cs1).editAt (r0 :: rest) f) = _
      rw [hr2]
      rfl

/-! `Node.makedirs`. -/

theorem Node.makedirs_noop {n : Node} {p : Key} (clk : Nat)
    (hanc : ∀ i, i ≤ p.length → ∃ st cs, n.find? (p.take i) = some (.dir st cs)) :
    n.makedirs p clk = some n := by
  induction p generalizing n with
  | nil =>
    obtain ⟨st, cs, hn⟩ := hanc 0 (by simp)
    simp only [List.take_nil, Node.find?_nil, Option.some.injEq] at hn
    subst hn
    simp [Node.makedirs, Node.isDir]
  | cons s tail ih =>
    obtain ⟨st, cs, hn⟩ := hanc 0 (by simp)
    simp only [List.take_zero, Node.find?_nil, Option.some.injEq] at hn
    subst hn
    obtain ⟨st1, cs1, h1⟩ := hanc 1 (by simp)
    rw [List.take_succ_cons, List.take_zero, Node.find?_single] at h1
    have hanc' : ∀ i, i ≤ tail.length →
        ∃ st2 cs2, (Node.dir st1 cs1).find? (tail.take i) = some (.dir st2 cs2) := by
      intro i hi
      have := hanc (i + 1) (by simpa using hi)
      rwa [List.take_succ_cons, Node.find?_cons_dir, h1, Option.some_bind] at this
    have hrec := ih hanc'
    simp only [Node.makedirs]
    rw [h1]
    simp only [Option.getD_some]
    rw [hrec]
    show some (Node.dir st (setChild cs s (Node.dir st1 cs1))) = some (Node.dir st cs)
    rw [setChild_eq_of_lookup cs s _ h1]

/-! Derived facts about the concrete mutation primitives. -/

theorem Node.writeFile_self {n : Node} {p : Key} {data : Bytes} {clk : Nat} {r : Node}
    (h : n.writeFile p data false clk = some r) : r.find? p = some (.file clk data) := by
  obtain ⟨x, hfx, hfind⟩ := Node.editAt_self h
  cases hold : n.find? p with
  | none => rw [hold] at hfx; cases hfx; exact hfind
  | some m =>
    cases m with
    | file st0 c0 => rw [hold] at hfx; cases hfx; exact hfind
    | dir st0 cs0 => rw [hold] at hfx; cases hfx

theorem Node.writeFile_unchanged {n : Node} {p : Key} {data : Bytes} {ap : Bool} {clk : Nat}
    {r : Node} (h : n.writeFile p data ap clk = some r) (q : Key)
    (h1 : ¬ leadsTo p q) (h2 : ¬ leadsTo q p) : r.find? q = n.find? q :=
  Node.editAt_unchanged h q h1 h2

theorem Node.writeFile_ancestors {n : Node} {p : Key} {data : Bytes} {ap : Bool} {clk : Nat}
    {r : Node} (h : n.writeFile p data ap clk = some r) :
    ∀ i, i < p.length → ∃ st cs, r.find? (p.take i) = some (.dir st cs) :=
  fun i hi => (Node.editAt_ancestors h i hi).2

theorem Node.removeAt_self {n : Node} {p : Key} {r : Node} (h : n.removeAt p = some r) :
    r.find? p = none := by
  obtain ⟨x, hfx, hfind⟩ := Node.editAt_self h
  cases hold : n.find? p with
  | none => rw [hold] at hfx; cases hfx
  | some m => rw [hold] at hfx; cases hfx; exact hfind

theorem Node.removeAt_unchanged {n : Node} {p : Key} {r : Node} (h : n.removeAt p = some r)
    (q : Key) (h1 : ¬ leadsTo p q) (h2 : ¬ leadsTo q p) : r.find? q = n.find? q :=
  Node.editAt_unchanged h q h1 h2

theorem Node.removeAt_ancestors {n : Node} {p : Key} {r : Node} (h : n.removeAt p = some r) :
    ∀ i, i < p.length → ∃ st cs, r.find? (p.take i) = some (.dir st cs) :=
  fun i hi => (Node.editAt_ancestors h i hi).2

theorem Node.removeAt_succeeds {n : Node} {p : Key} {m : Node} (hm : n.find? p = some m)
    (hne : p ≠ []) : ∃ r, n.removeAt p = some r := by
  apply Node.editAt_succeeds (Node.find?_ancestors hm) hne
  rw [hm]

theorem Node.placeAt_self {n : Node} {p : Key} {m : Node} {r : Node}
    (h : n.placeAt p m = some r) : r.find? p = some m := by
  obtain ⟨x, hfx, hfind⟩ := Node.editAt_self h
  cases hfx
  exact hfind

theorem Node.placeAt_unchanged {n : Node} {p : Key} {m : Node} {r : Node}
    (h : n.placeAt p m = some r) (q : Key) (h1 : ¬ leadsTo p q) (h2 : ¬ leadsTo q p) :
    r.find? q = n.find? q :=
  Node.editAt_unchanged h q h1 h2

theorem Node.placeAt_succeeds {n : Node} {p : Key} (m : Node)
    (hanc : ∀ i, i < p.length → ∃ st cs, n.find? (p.take i) = some (.dir st cs))
    (hne : p ≠ []) : ∃ r, n.placeAt p m = some r :=
  Node.editAt_succeeds hanc hne rfl

/-! String order and sorting. -/

theorem strLeAux_total : ∀ x y : List Char, strLeAux x y = true ∨ strLeAux y x = true := by
  intro x
  induction x with
  | nil => intro y; left; rfl
  | cons a as ih =>
    intro y
    cases y with
    | nil => right; rfl
    | cons b bs =>
      by_cases hab : a.toNat = b.toNat
      · rcases ih bs with h | h
        · left; simp [strLeAux, hab, h]
        · right; simp [strLeAux, hab.symm, h]
      · rcases Nat.lt_or_ge a.toNat b.toNat with h | h
        · left; simp [strLeAux, hab, h]
        · right
          have hba : ¬ b.toNat = a.toNat := fun e => hab e.symm
          have hlt : b.toNat < a.toNat := lt_of_le_of_ne h hba
          simp [strLeAux, hba, hlt]

theorem strLe_total (a b : String) : strLe a b = true ∨ strLe b a = true :=
  strLeAux_total a.data b.data

theorem strLeAux_trans :
    ∀ x y z : List Char, strLeAux x y = true → strLeAux y z = true → strLeAux x z = true := by
  intro x
  induction x with
  | nil => intro y z _ _; rfl
  | cons a as ih =>
    intro y z hxy hyz
    cases y with
    | nil => simp [strLeAux] at hxy
    | cons b bs =>
      cases z with
      | nil => simp [strLeAux] at hyz
      | cons c cs =>
        by_cases hab : a.toNat = b.toNat
        · by_cases hbc : b.toNat = c.toNat
          · have hac : a.toNat = c.toNat := hab.trans hbc
            simp only [strLeAux, if_pos hab, if_pos hbc, if_pos hac] at hxy hyz ⊢
            exact ih bs cs hxy hyz
          · simp only [strLeAux, if_neg hbc, decide_eq_true_eq] at hyz
            have hlt : a.toNat < c.toNat := hab ▸ hyz
            simp [strLeAux, Nat.ne_of_lt hlt, hlt]
        · simp only [strLeAux, if_neg hab, decide_eq_true_eq] at hxy
          by_cases hbc : b.toNat = c.toNat
          · have hlt : a.toNat < c.toNat := hbc ▸ hxy
            simp [strLeAux, Nat.ne_of_lt hlt, hlt]
          · simp only [strLeAux, if_neg hbc, decide_eq_true_eq] at hyz
            have hlt : a.toNat < c.toNat := hxy.trans hyz
            simp [strLeAux, Nat.ne_of_lt hlt, hlt]

theorem strLe_trans {a b c : String} (h1 : strLe a b = true) (h2 : strLe b c = true) :
    strLe a c = true :=
  strLeAux_trans a.data b.data c.data h1 h2

theorem mem_insertSorted {x s : String} :
    ∀ {l : List String}, x ∈ insertSorted s l → x = s ∨ x ∈ l := by
  intro l
  induction l with
  | nil => intro hx; simp [insertSorted] at hx; exact Or.inl hx
  | cons t rest ih =>
    intro hx
    by_cases hst : strLe s t = true
    · rw [insertSorted, if_pos hst] at hx
      rcases List.mem_cons.mp hx with h | h
      · exact Or.inl h
      · exact Or.inr h
    · rw [insertSorted, if_neg hst] at hx
      rcases List.mem_cons.mp hx with h | h
      · exact Or.inr (h ▸ List.mem_cons_self t rest)
      · rcases ih h with h2 | h2
        · exact Or.inl h2
        · exact Or.inr (List.mem_cons_of_mem t h2)

theorem sorted_insertSorted (s : String) {l : List String}
    (hl : l.Sorted fun a b => strLe a b = true) :
    (insertSorted s l).Sorted fun a b => strLe a b = true := by
  induction l with
  | nil => simp [insertSorted]
  | cons t rest ih =>
    rw [List.sorted_cons] at hl
    obtain ⟨ht, hrest⟩ := hl
    by_cases hst : strLe s t = true
    · rw [insertSorted, if_pos hst, List.sorted_cons]
      refine ⟨?_, List.sorted_cons.mpr ⟨ht, hrest⟩⟩
      intro b hb
      rcases List.mem_cons.mp hb with rfl | hb2
      · exact hst
      · exact strLe_trans hst (ht b hb2)
    · rw [insertSorted, if_neg hst, List.sorted_cons]
      refine ⟨?_, ih hrest⟩
      intro b hb
      rcases mem_insertSorted hb with rfl | hb2
      · rcases strLe_total b t with h | h
        · exact absurd h hst
        · exact h
      · exact ht b hb2

theorem sorted_sortStrings (l : List String) :
    (sortStrings l).Sorted fun a b => strLe a b = true := by
  induction l with
  | nil => simp [sortStrings]
  | cons s rest ih => exact sorted_insertSorted s ih

theorem sorted_internalListDir (root : Node) (p : Key) :
    (internalListDir root p).Sorted fun a b => strLe a b = true := by
  unfold internalListDir
  split
  · exact sorted_sortStrings _
  · exact List.Pairwise.nil

theorem internalKeys_map_fst (root : Node) (p : Key) (ic idt : Bool) :
    (internalKeys root p ic idt).map Prod.fst
      = (internalListDir root p).filter fun k => pathExists root (p ++ [k]) ic idt := by
  unfold internalKeys
  rw [List.map_map]
  have hfun : (Prod.fst ∘ fun k : String => (k, p ++ [k])) = fun k => k := rfl
  rw [hfun]
  exact List.map_id _

theorem sorted_internalKeys_fst (root : Node) (p : Key) (ic idt : Bool) :
    ((internalKeys root p ic idt).map Prod.fst).Sorted fun a b => strLe a b = true := by
  rw [internalKeys_map_fst]
  exact (sorted_internalListDir root p).filter _

/-! ### Claim theorems -/

/-- C6: a handle derived through `NestedDictFS(parent, mode)` shares the
parent's cache and agrees with it on store engine and compression level, but
a child handle derived through `_internal_get_child` (the path used by
`get_child`, subtree gets and search) shares the cache and the store engine
while its compression level falls back to the constructor default `9`: for a
parent opened with `compress_level=0` the two handles share one cache and
disagree on the compression level, contradicting the claimed invariant. -/
theorem C6_child_compress_level_mismatch :
    (hc0.internalGetChild ["store", "a"] false).cacheId = hc0.cacheId ∧
    (hc0.internalGetChild ["store", "a"] false).storeEngine = hc0.storeEngine ∧
    hc0.compressLevel = 0 ∧
    (hc0.internalGetChild ["store", "a"] false).compressLevel = 9 ∧
    (hc0.internalGetChild ["store", "a"] false).compressLevel ≠ hc0.compressLevel ∧
    (Handle.fromParent hc0 "r").compressLevel = hc0.compressLevel ∧
    (Handle.fromParent hc0 "r").storeEngine = hc0.storeEngine ∧
    (Handle.fromParent hc0 "r").cacheId = hc0.cacheId :=
  ⟨rfl, rfl, rfl, rfl, by decide, rfl, rfl, rfl⟩

/-- C9 (amended): in the current `nesteddict` implementation an empty search
key is not rejected — `search` yields exactly one result, the handle's own
root; only the older `nested_dict_fs` variant rejects an empty search key,
and it does so unconditionally with a `ValueError`. -/
theorem C9_empty_search_key (h : Handle) (root : Node) (ic idt : Bool) :
    h.searchKeys root [] ic idt = .ok [.many []] ∧
    h.searchKeysVariant root [] ic idt = .error .valueError :=
  ⟨rfl, rfl⟩

/-- C9 (counterexample): a concrete `search` call with an empty query key on
the current implementation returns a (one-element) result stream instead of
failing with a `ValueError`-class error. -/
theorem C9_counterexample :
    hc.searchKeys fsAD [] true true = .ok [.many []] ∧
    (Except.error Err.valueError : Except Err (List KeyOut)) ≠ .ok [.many []] :=
  ⟨rfl, fun hcon => Except.noConfusion hcon⟩

/-- C10: a key that resolves to the handle's own root path (the empty key)
makes every get variant — `get_cached`, `get_direct`, `get`, `get_child`,
`get_data`, `__getitem__` — return the handle itself, with the cache left
untouched, every default ignored, and the include filters bypassed (in
particular `get_data` returns the subtree handle instead of raising
`LookupNotIncludeChild`). -/
theorem C10_root_key_returns_self (h : Handle) (env : Env) (root : Node) (cache : Cache)
    (item : Key) (hk : h.keyPath root item = .ok h.dataPath) :
    (∀ re ic idt cc, h.getCached env root cache item re ic idt cc = (.ok (.child h), cache)) ∧
    (∀ re ic idt cc, h.getDirect env root item re ic idt cc = .ok (.child h)) ∧
    h.get env root cache item = (.ok (.child h), cache) ∧
    h.getChild env root cache item = (.ok (.child h), cache) ∧
    h.getData env root cache item = (.ok (.child h), cache) ∧
    h.getItem env root cache item = (.ok (.child h), cache) := by
  have hg : ∀ re ic idt cc,
      h.getCached env root cache item re ic idt cc = (.ok (.child h), cache) := by
    intro re ic idt cc
    unfold Handle.getCached
    rw [hk]
    simp
  have hd : ∀ re ic idt cc, h.getDirect env root item re ic idt cc = .ok (.child h) := by
    intro re ic idt cc
    unfold Handle.getDirect
    rw [hk]
    simp
  exact ⟨hg, hd, hg false true true false, hg true true false true, hg true false true false,
    hg true true true false⟩

/-- C10 (witness): the empty key on a concrete handle resolves to the root
path and `get_data(())` returns the handle itself rather than raising. -/
theorem C10_witness :
    hc.keyPath fsAD [] = .ok hc.dataPath ∧
    hc.getData testEnv fsAD [] [] = (.ok (.child hc), []) :=
  ⟨rfl, (C10_root_key_returns_self hc testEnv fsAD [] [] rfl).2.2.2.2.1⟩

/-- C8 (amended): for a fixed filesystem state — including its raw directory
entry order — a search produces a deterministic finite result list.
Wildcard and pattern tokens enumerate the children of each node via
`_internal_list_dir`, i.e. in sorted segment order; the single-token
equations below exhibit this, and the listing order is proved sorted.  (The
recursive token instead follows `os.walk`, which uses the raw unsorted
directory order — see the counterexample.) -/
theorem C8_wild_pattern_sorted (h : Handle) (root : Node) (ic idt : Bool) (f : String → Bool) :
    h.searchKeys root [.tok .wild] ic idt =
      .ok ((internalKeys root h.dataPath ic idt).map fun kp => yieldKey [kp.1]) ∧
    h.searchKeys root [.tok (.pat f)] ic idt =
      .ok (((internalKeys root h.dataPath ic idt).filter fun kp => f kp.1).map
        fun kp => yieldKey [kp.1]) ∧
    ((internalKeys root h.dataPath ic idt).map Prod.fst).Sorted (fun a b => strLe a b = true) ∧
    (internalListDir root h.dataPath).Sorted (fun a b => strLe a b = true) := by
  refine ⟨?_, ?_, sorted_internalKeys_fst root h.dataPath ic idt,
    sorted_internalListDir root h.dataPath⟩
  · have h1 : h.searchKeys root [.tok .wild] ic idt
        = .ok ((searchFrontier root h.dataPath ic idt [Run.tok .wild] [[]]).map yieldKey) := rfl
    rw [h1]
    simp [searchFrontier, expandRun, List.map_map]
  · have h1 : h.searchKeys root [.tok (.pat f)] ic idt
        = .ok ((searchFrontier root h.dataPath ic idt [Run.tok (.pat f)] [[]]).map yieldKey) :=
      rfl
    rw [h1]
    simp [searchFrontier, expandRun, List.map_map]

/-- C8 (counterexample): with the recursive token, sibling subtrees are
yielded in raw `os.walk` order, not sorted segment order — on a directory
whose raw order is `b` before `a` the result sequence is `(), b, a`. -/
theorem C8_counterexample :
    hc.searchKeys fsBA [.tok .recur] true true = .ok [.many [], .one "b", .one "a"] ∧
    ¬ (["b", "a"].Sorted fun a b => strLe a b = true) :=
  ⟨rfl, by decide⟩

/-- C2 (amended): when a multi-segment key with well-formed segments has a
strict non-empty ancestor that currently resolves to a leaf, key resolution
fails with `LookupDataSubItem`; consequently every read (`get_cached`,
`get_direct`, `exists`) fails with that error, and so does every mutation
(`put`, `append`, `delete`, `copy`, `move` — in either argument position)
on a *writable* handle, before any filesystem change.  On a read-only handle
the mutations fail earlier with `AccessViolation` instead (see the
counterexample). -/
theorem C2_leaf_blocks_descent (h : Handle) (env : Env) (s : Sys) (item : Key)
    (hseg : ∀ x ∈ item, validSegment x = true)
    (hanc : ∃ i, 1 ≤ i ∧ i < item.length ∧
      ∃ st c, s.root.find? (h.dataPath ++ item.take i) = some (.file st c)) :
    h.keyPath s.root item = .error .dataSubItem ∧
    (∀ re ic idt cc, h.getCached env s.root s.cache item re ic idt cc
      = (.error .dataSubItem, s.cache)) ∧
    (∀ re ic idt cc, h.getDirect env s.root item re ic idt cc = .error .dataSubItem) ∧
    h.existsItem s.root item = .error .dataSubItem ∧
    (h.writable = true →
      (∀ v ap, h.internalPut env s item (.value v) ap = .error .dataSubItem) ∧
      (∀ ig, h.internalDelete s item ig = .error .dataSubItem) ∧
      (∀ dst mv, h.internalCopyMove s item dst mv = .error .dataSubItem) ∧
      (∀ src srcP mv, h.keyPath s.root src = .ok srcP →
        h.internalCopyMove s src item mv = .error .dataSubItem)) := by
  have hno : (item.any fun x => ¬ validSegment x) = false := by
    rw [List.any_eq_false]
    intro x hx
    simp [hseg x hx]
  have hfa : hasFileAncestor s.root h.dataPath item = true := by
    obtain ⟨i, h1, h2, st, c, hf⟩ := hanc
    unfold hasFileAncestor
    rw [List.any_eq_true]
    refine ⟨i, List.mem_range.mpr h2, ?_⟩
    simp [h1, hf, Node.isFile]
  have hkp : h.keyPath s.root item = .error .dataSubItem := by
    unfold Handle.keyPath Handle.verifyItem
    rw [hno, hfa]
    rfl
  refine ⟨hkp, ?_, ?_, ?_, ?_⟩
  · intro re ic idt cc
    unfold Handle.getCached
    rw [hkp]
  · intro re ic idt cc
    unfold Handle.getDirect
    rw [hkp]
  · unfold Handle.existsItem
    rw [hkp]
    rfl
  · intro hw
    refine ⟨?_, ?_, ?_, ?_⟩
    · intro v ap
      unfold Handle.internalPut
      rw [hw, hkp]
      rfl
    · intro ig
      unfold Handle.internalDelete
      rw [hw, hkp]
      rfl
    · intro dst mv
      unfold Handle.internalCopyMove
      rw [hw, hkp]
      rfl
    · intro src srcP mv hsrc
      unfold Handle.internalCopyMove
      rw [hw, hsrc, hkp]
      rfl

/-- C2 (witness): a concrete key `("a", "b")` whose first segment is a leaf
is rejected with `LookupDataSubItem` by reads and by writable mutations. -/
theorem C2_witness :
    (∀ x ∈ (["a", "b"] : Key), validSegment x = true) ∧
    (∃ i, 1 ≤ i ∧ i < (["a", "b"] : Key).length ∧
      ∃ st c, fsAD.find? (hc.dataPath ++ (["a", "b"] : Key).take i) = some (.file st c)) ∧
    hc.keyPath fsAD ["a", "b"] = .error .dataSubItem ∧
    hc.internalPut testEnv ⟨10, fsAD, []⟩ ["a", "b"] (.value (.int 1)) false
      = .error .dataSubItem := by
  have hseg : ∀ x ∈ (["a", "b"] : Key), validSegment x = true := by decide
  have hanc : ∃ i, 1 ≤ i ∧ i < (["a", "b"] : Key).length ∧
      ∃ st c, fsAD.find? (hc.dataPath ++ (["a", "b"] : Key).take i) = some (.file st c) :=
    ⟨1, le_refl 1, by decide, 2, [9, 0, 7], rfl⟩
  have hmain := C2_leaf_blocks_descent hc testEnv ⟨10, fsAD, []⟩ ["a", "b"] hseg hanc
  exact ⟨hseg, hanc, hmain.1, (hmain.2.2.2.2 rfl).1 (.int 1) false⟩

/-- C2 (counterexample): on a read-only handle the same leaf-blocked
multi-segment `put` fails with `AccessViolation`, not `LookupDataSubItem`:
the claim's "always fails with the LookupDataSubItem error" does not hold
for mutations on read-only handles, where the access check runs first. -/
theorem C2_counterexample :
    hr.internalPut testEnv ⟨10, fsAD, []⟩ ["a", "b"] (.value (.int 1)) false
      = .error .accessViolation ∧
    (∃ st c, fsAD.find? (hr.dataPath ++ (["a", "b"] : Key).take 1) = some (.file st c)) ∧
    Err.accessViolation ≠ Err.dataSubItem :=
  ⟨rfl, ⟨2, [9, 0, 7], rfl⟩, by decide⟩

/-- C5 (amended): on a read-only handle, `put`, `append`, `delete`, `copy`
and `move` fail with `AccessViolation` regardless of the target; but
`get_child` (the spec's `get_subtree(create=True)`) raises `AccessViolation`
only when the target is currently absent — an existing subtree is returned
as a handle, and an existing leaf fails with `LookupNotIncludeData`. -/
theorem C5_read_only (h : Handle) (env : Env) (s : Sys) (hro : h.writable = false) :
    (∀ item arg ap, h.internalPut env s item arg ap = .error .accessViolation) ∧
    (∀ item ig, h.internalDelete s item ig = .error .accessViolation) ∧
    (∀ src dst mv, h.internalCopyMove s src dst mv = .error .accessViolation) ∧
    (∀ item itemPath, h.keyPath s.root item = .ok itemPath → itemPath ≠ h.dataPath →
      s.root.find? itemPath = none →
      h.getChild env s.root s.cache item = (.error .accessViolation, cacheDel s.cache itemPath)) ∧
    (∀ item itemPath st cs, h.keyPath s.root item = .ok itemPath → itemPath ≠ h.dataPath →
      cacheGet s.cache itemPath = none → s.root.find? itemPath = some (.dir st cs) →
      h.getChild env s.root s.cache item =
        (.ok (.child (h.internalGetChild itemPath false)),
          cacheSet s.cache itemPath (st, .child (h.internalGetChild itemPath false)))) ∧
    (∀ item itemPath st c, h.keyPath s.root item = .ok itemPath → itemPath ≠ h.dataPath →
      cacheGet s.cache itemPath = none → s.root.find? itemPath = some (.file st c) →
      h.getChild env s.root s.cache item = (.error .notIncludeData, s.cache)) := by
  refine ⟨?_, ?_, ?_, ?_, ?_, ?_⟩
  · intro item arg ap
    unfold Handle.internalPut
    simp [hro]
  · intro item ig
    unfold Handle.internalDelete
    simp [hro]
  · intro src dst mv
    unfold Handle.internalCopyMove
    simp [hro]
  · intro item itemPath hkp hne hab
    have hstat : statAt s.root itemPath = none := by simp [statAt, hab]
    cases hcg : cacheGet s.cache itemPath with
    | none =>
      rw [cacheDel_eq_of_none s.cache itemPath hcg]
      simp [Handle.getChild, Handle.getCached, hkp, hne, Handle.internalGetCached, hcg, hstat,
        Handle.internalGetMiss, Handle.internalGetDirect, hab, hro]
    | some e =>
      obtain ⟨st0, cv0⟩ := e
      simp [Handle.getChild, Handle.getCached, hkp, hne, Handle.internalGetCached, hcg, hstat,
        Handle.internalGetMiss, Handle.internalGetDirect, hab, hro]
  · intro item itemPath st cs hkp hne hcg hdir
    have hstat : statAt s.root itemPath = some st := by simp [statAt, hdir, Node.statOf]
    simp [Handle.getChild, Handle.getCached, hkp, hne, Handle.internalGetCached, hcg, hstat,
      Handle.internalGetMiss, Handle.internalGetDirect, hdir, finalIncludeCheck]
  · intro item itemPath st c hkp hne hcg hfile
    simp [Handle.getChild, Handle.getCached, hkp, hne, Handle.internalGetCached, hcg,
      Handle.internalGetMiss, Handle.internalGetDirect, hfile]

/-- C5 (witness): the read-only mutation rejections at a concrete input,
plus the concrete absent-target `get_child` rejection. -/
theorem C5_witness :
    hr.writable = false ∧
    hr.internalPut testEnv ⟨10, fsAD, []⟩ ["z"] (.value (.int 1)) false
      = .error .accessViolation ∧
    hr.internalDelete ⟨10, fsAD, []⟩ ["a"] false = .error .accessViolation ∧
    hr.internalCopyMove ⟨10, fsAD, []⟩ ["a"] ["z"] true = .error .accessViolation ∧
    hr.getChild testEnv fsAD [] ["z"] = (.error .accessViolation, []) := by
  have hmain := C5_read_only hr testEnv ⟨10, fsAD, []⟩ rfl
  refine ⟨rfl, hmain.1 ["z"] (.value (.int 1)) false, hmain.2.1 ["a"] false,
    hmain.2.2.1 ["a"] ["z"] true, ?_⟩
  exact (hmain.2.2.2.1 ["z"] ["store", "z"] rfl (by decide) rfl).trans rfl

/-- C5 (counterexample): `get_child(create=True)` on a read-only handle does
not fail when the target is an existing subtree — it returns the subtree
handle, contradicting "fails with AccessViolation regardless of whether the
target currently exists". -/
theorem C5_counterexample :
    hr.writable = false ∧
    hr.getChild testEnv fsAD [] ["d"]
      = (.ok (.child (hr.internalGetChild ["store", "d"] false)),
          [(["store", "d"], 3, .child (hr.internalGetChild ["store", "d"] false))]) ∧
    (hr.getChild testEnv fsAD [] ["d"]).1 ≠ .error .accessViolation := by
  refine ⟨rfl, rfl, ?_⟩
  intro hcon
  rw [show (hr.getChild testEnv fsAD [] ["d"]).1
      = .ok (.child (hr.internalGetChild ["store", "d"] false)) from rfl] at hcon
  exact Except.noConfusion hcon

/-- C7 (amended): every mutation performs its conflict checks against the
live filesystem (the definitions of `_internal_put`, `_internal_delete` and
`_internal_copy_move` never read the cache), but only `put` explicitly
invalidates the cache — it removes exactly the target path's entry — while
`delete`, `copy` and `move` leave the cache contents untouched, so a stale
entry for an affected path survives until a later cached lookup's stat
validation discards it. -/
theorem C7_cache_invalidation (h : Handle) (env : Env) (s : Sys) :
    (∀ item itemPath arg ap s2, h.keyPath s.root item = .ok itemPath →
      h.internalPut env s item arg ap = .ok s2 →
      s2.cache = cacheDel s.cache itemPath ∧ cacheGet s2.cache itemPath = none) ∧
    (∀ item ig s2, h.internalDelete s item ig = .ok s2 → s2.cache = s.cache) ∧
    (∀ src dst mv s2, h.internalCopyMove s src dst mv = .ok s2 → s2.cache = s.cache) := by
  refine ⟨?_, ?_, ?_⟩
  · intro item itemPath arg ap s2 hkp hput
    unfold Handle.internalPut at hput
    split at hput
    · cases hput
    · split at hput
      · cases hput
      · simp only [hkp] at hput
        split at hput
        · cases hput
        · split at hput
          · cases hput
          · split at hput
            · cases hput
            · cases hput
              exact ⟨rfl, cacheGet_cacheDel_self s.cache itemPath⟩
  · intro item ig s2 hdel
    unfold Handle.internalDelete at hdel
    split at hdel
    · cases hdel
    · split at hdel
      · cases hdel
      · split at hdel
        · split at hdel
          · cases hdel
          · cases hdel; rfl
        · split at hdel
          · cases hdel; rfl
          · cases hdel
  · intro src dst mv s2 hcm
    unfold Handle.internalCopyMove at hcm
    split at hcm
    · cases hcm
    · split at hcm
      · cases hcm
      · split at hcm
        · cases hcm
        · split at hcm
          · cases hcm
          · split at hcm
            · cases hcm
            · split at hcm
              · cases hcm
              · split at hcm
                · cases hcm
                · split at hcm
                  · split at hcm
                    · cases hcm
                    · split at hcm
                      · cases hcm
                      · cases hcm; rfl
                  · split at hcm
                    · cases hcm
                    · cases hcm; rfl

/-- C7 (witness): a concrete `delete` of the leaf `a` succeeds and leaves
the (stale, still-present) cache entry for the deleted path in place; a
concrete `put` removes exactly its target's entry. -/
theorem C7_witness :
    (∃ s2, hc.internalDelete ⟨10, fsAD, cacheFresh⟩ ["a"] false = .ok s2 ∧
      s2.cache = cacheFresh ∧ cacheGet s2.cache ["store", "a"] = some (2, .value (.int 7))) ∧
    (∃ s3, hc.internalPut testEnv ⟨10, fsAD, cacheFresh⟩ ["a"] (.value (.int 5)) false
      = .ok s3 ∧ s3.cache = cacheDel cacheFresh ["store", "a"] ∧
      cacheGet s3.cache ["store", "a"] = none) := by
  constructor
  · refine ⟨_, rfl, ?_, ?_⟩
    · exact (C7_cache_invalidation hc testEnv ⟨10, fsAD, cacheFresh⟩).2.1 ["a"] false _ rfl
    · rfl
  · refine ⟨_, rfl, ?_, ?_⟩
    · exact ((C7_cache_invalidation hc testEnv ⟨10, fsAD, cacheFresh⟩).1 ["a"]
        ["store", "a"] (.value (.int 5)) false _ rfl rfl).1
    · rfl

/-- C7 (counterexample): after `delete(("a",))` the shared cache still holds
the entry for the deleted path — `delete` performs no cache invalidation, so
the claim that every mutating operation removes the affected entries fails. -/
theorem C7_counterexample :
    hc.internalDelete ⟨10, fsAD, cacheFresh⟩ ["a"] false
      = .ok ⟨11, .dir 0 [("store", .dir 1 [("d", .dir 3 [])])], cacheFresh⟩ ∧
    cacheGet cacheFresh ["store", "a"] = some (2, .value (.int 7)) ∧
    cacheFresh ≠ [] :=
  ⟨rfl, rfl, by decide⟩

/-- C3: when no validated cache entry exists for the resolved path — the
entry is missing, or its fingerprint differs from a fresh metadata read
(including "now absent") — the stale entry (if any) is deleted and the
lookup proceeds exactly as a miss: the value comes from direct resolution
(with the final include checks applied), and afterwards the cache holds a
`(metadata, value)` entry for the path if and only if the path currently has
metadata and the produced value is not the default sentinel. -/
theorem C3_cached_lookup (h : Handle) (env : Env) (root : Node) (cache : Cache)
    (itemPath : Key) (re ic iv cc : Bool)
    (hstale : ∀ st cv, cacheGet cache itemPath = some (st, cv) →
      statAt root itemPath ≠ some st) :
    h.internalGetCached env root cache itemPath re ic iv cc =
      (match h.internalGetDirect env root itemPath re ic iv cc with
       | .error e => (.error e, cacheDel cache itemPath)
       | .ok rv =>
         (finalIncludeCheck rv ic iv,
          match rv, statAt root itemPath with
          | .value v, some st => cacheSet (cacheDel cache itemPath) itemPath (st, .value v)
          | .child c, some st => cacheSet (cacheDel cache itemPath) itemPath (st, .child c)
          | _, _ => cacheDel cache itemPath)) ∧
    (∀ rv, h.internalGetDirect env root itemPath re ic iv cc = .ok rv →
      cacheGet (h.internalGetCached env root cache itemPath re ic iv cc).2 itemPath =
        match rv, statAt root itemPath with
        | .value v, some st => some (st, CVal.value v)
        | .child c, some st => some (st, CVal.child c)
        | _, _ => none) := by
  have hmiss : ∀ c1 : Cache, h.internalGetMiss env root c1 itemPath re ic iv cc =
      (match h.internalGetDirect env root itemPath re ic iv cc with
       | .error e => (.error e, c1)
       | .ok rv =>
         (finalIncludeCheck rv ic iv,
          match rv, statAt root itemPath with
          | .value v, some st => cacheSet c1 itemPath (st, .value v)
          | .child c, some st => cacheSet c1 itemPath (st, .child c)
          | _, _ => c1)) := by
    intro c1
    unfold Handle.internalGetMiss
    cases hdir : h.internalGetDirect env root itemPath re ic iv cc with
    | error e => rfl
    | ok rv =>
      cases rv with
      | value v => cases statAt root itemPath <;> rfl
      | child c => cases statAt root itemPath <;> rfl
      | dflt => cases statAt root itemPath <;> rfl
  have hmain : h.internalGetCached env root cache itemPath re ic iv cc =
      (match h.internalGetDirect env root itemPath re ic iv cc with
       | .error e => (.error e, cacheDel cache itemPath)
       | .ok rv =>
         (finalIncludeCheck rv ic iv,
          match rv, statAt root itemPath with
          | .value v, some st => cacheSet (cacheDel cache itemPath) itemPath (st, .value v)
          | .child c, some st => cacheSet (cacheDel cache itemPath) itemPath (st, .child c)
          | _, _ => cacheDel cache itemPath)) := by
    unfold Handle.internalGetCached
    cases hcg : cacheGet cache itemPath with
    | none =>
      rw [cacheDel_eq_of_none cache itemPath hcg]
      exact hmiss cache
    | some e =>
      obtain ⟨st0, cv0⟩ := e
      show (if statAt root itemPath = some st0 then (finalIncludeCheck cv0.toGot ic iv, cache)
        else h.internalGetMiss env root (cacheDel cache itemPath) itemPath re ic iv cc) = _
      rw [if_neg (hstale st0 cv0 hcg)]
      exact hmiss (cacheDel cache itemPath)
  refine ⟨hmain, ?_⟩
  intro rv hdir
  rw [hmain, hdir]
  cases rv with
  | value v =>
    cases hst : statAt root itemPath with
    | none => exact cacheGet_cacheDel_self cache itemPath
    | some st => exact cacheGet_cacheSet_self (cacheDel cache itemPath) itemPath (st, .value v)
  | child c =>
    cases hst : statAt root itemPath with
    | none => exact cacheGet_cacheDel_self cache itemPath
    | some st => exact cacheGet_cacheSet_self (cacheDel cache itemPath) itemPath (st, .child c)
  | dflt =>
    cases hst : statAt root itemPath with
    | none => exact cacheGet_cacheDel_self cache itemPath
    | some st => exact cacheGet_cacheDel_self cache itemPath

/-- C3 (witness): a concrete stale entry (fingerprint 99 against current
stat 2) is discarded; the value is re-read from the file and the fresh
`(2, value)` entry is stored. -/
theorem C3_witness :
    (∀ st cv, cacheGet cacheStale ["store", "a"] = some (st, cv) →
      statAt fsAD ["store", "a"] ≠ some st) ∧
    hc.internalGetCached testEnv fsAD cacheStale ["store", "a"] false true true false
      = (.ok (.value (.int 7)), [(["store", "a"], 2, .value (.int 7))]) := by
  have hstale : ∀ st cv, cacheGet cacheStale ["store", "a"] = some (st, cv) →
      statAt fsAD ["store", "a"] ≠ some st := by
    intro st cv hcv
    cases hcv
    decide
  refine ⟨hstale, ?_⟩
  exact (C3_cached_lookup hc testEnv fsAD cacheStale ["store", "a"]
    false true true false hstale).1.trans rfl

/-! Helper facts used by the round-trip claim. -/

theorem take_append_add (a b : Key) (i : Nat) :
    (a ++ b).take (a.length + i) = a ++ b.take i := by
  rw [List.take_append_eq_append_take]
  have h1 : a.take (a.length + i) = a := List.take_of_length_le (by omega)
  have h2 : a.length + i - a.length = i := by omega
  rw [h1, h2]

theorem Handle.verifyItem_ok {h : Handle} {root : Node} {item it : Key}
    (hv : h.verifyItem root item = .ok it) :
    it = item ∧ (item.any fun x => ¬ validSegment x) = false := by
  unfold Handle.verifyItem at hv
  split at hv
  · cases hv
  · rename_i hseg
    split at hv
    · cases hv
    · cases hv
      exact ⟨rfl, by simpa using hseg⟩

theorem Handle.keyPath_ok {h : Handle} {root : Node} {item p : Key}
    (hk : h.keyPath root item = .ok p) :
    p = h.dataPath ++ item ∧ (item.any fun x => ¬ validSegment x) = false := by
  unfold Handle.keyPath at hk
  cases hv : h.verifyItem root item with
  | error e => rw [hv] at hk; cases hk
  | ok it =>
    rw [hv] at hk
    cases hk
    obtain ⟨rfl, hseg⟩ := Handle.verifyItem_ok hv
    exact ⟨rfl, hseg⟩

/-- Key resolution succeeds against a root in which every strict non-empty
ancestor of the item below the handle's path is a directory. -/
theorem Handle.keyPath_ok_of_dirs (h : Handle) (root : Node) (item : Key)
    (hseg : (item.any fun x => ¬ validSegment x) = false)
    (hdirs : ∀ i, 1 ≤ i → i < item.length →
      ∃ st cs, root.find? (h.dataPath ++ item.take i) = some (.dir st cs)) :
    h.keyPath root item = .ok (h.dataPath ++ item) := by
  have hfa : hasFileAncestor root h.dataPath item = false := by
    unfold hasFileAncestor
    rw [List.any_eq_false]
    intro i hi
    rcases Nat.eq_zero_or_pos i with rfl | hpos
    · simp
    · obtain ⟨st, cs, hd⟩ := hdirs i hpos (List.mem_range.mp hi)
      simp [hd, Node.isFile]
  unfold Handle.keyPath Handle.verifyItem
  rw [hseg, hfa]
  rfl

/-- C1: when `put(k, v)` succeeds on a writable handle with a non-empty
well-formed key, the target file holds exactly the compressed encoding of
`v`, and a subsequent `get(k)` — assuming the engine and the compression
transform round-trip on `v`'s encoding — decodes it back to a value equal to
`v` (and stores the fresh cache entry for the path). -/
theorem C1_put_get_roundtrip (h : Handle) (env : Env) (s s2 : Sys) (item : Key) (v : Value)
    (hne : item ≠ [])
    (hput : h.internalPut env s item (.value v) false = .ok s2)
    (hdec : (env.engineFor h).dec ((env.engineFor h).enc v) = some v)
    (hgz : env.decomp (env.comp h.compressLevel ((env.engineFor h).enc v))
      = some ((env.engineFor h).enc v)) :
    s2.root.find? (h.dataPath ++ item) = some (.file s.clock (encodeForFile env h v)) ∧
    h.get env s2.root s2.cache item
      = (.ok (.value v), cacheSet s2.cache (h.dataPath ++ item) (s.clock, .value v)) := by
  have hdecfile : decodeFromFile env h (encodeForFile env h v) = some v := by
    unfold decodeFromFile encodeForFile
    by_cases h0 : h.compressLevel = 0
    · simp [h0, hdec]
    · simp [h0, hgz, hdec]
  unfold Handle.internalPut at hput
  split at hput
  · cases hput
  · cases hkp : h.keyPath s.root item with
    | error e => rw [hkp] at hput; cases hput
    | ok itemPath =>
      obtain ⟨hip, hseg⟩ := Handle.keyPath_ok hkp
      subst hip
      simp only [hkp] at hput
      split at hput
      · cases hput
      · cases hmk : s.root.makedirs (h.dataPath ++ item).dropLast s.clock with
        | none => rw [hmk] at hput; cases hput
        | some root1 =>
          rw [hmk] at hput
          have hput2 : (match root1.writeFile (h.dataPath ++ item) (encodeForFile env h v)
                false s.clock with
              | none => (Except.error Err.osError : Except Err Sys)
              | some root2 => Except.ok
                  { clock := s.clock + 1, root := root2,
                    cache := cacheDel s.cache (h.dataPath ++ item) }) = Except.ok s2 := hput
          clear hput
          cases hwf : root1.writeFile (h.dataPath ++ item) (encodeForFile env h v) false
              s.clock with
          | none => rw [hwf] at hput2; cases hput2
          | some root2 =>
            rw [hwf] at hput2
            cases hput2
            have hfind : root2.find? (h.dataPath ++ item)
                = some (.file s.clock (encodeForFile env h v)) :=
              Node.writeFile_self hwf
            refine ⟨hfind, ?_⟩
            have hne2 : h.dataPath ++ item ≠ h.dataPath := by
              intro hcon
              apply hne
              have := congrArg List.length hcon
              simp at this
              exact this
            have hkp2 : h.keyPath root2 item = .ok (h.dataPath ++ item) := by
              apply Handle.keyPath_ok_of_dirs h root2 item hseg
              intro i h1 h2
              have hidx : h.dataPath.length + i < (h.dataPath ++ item).length := by
                simp
                omega
              have := Node.writeFile_ancestors hwf (h.dataPath.length + i) hidx
              rwa [take_append_add] at this
            have hstat : statAt root2 (h.dataPath ++ item) = some s.clock := by
              simp [statAt, hfind, Node.statOf]
            have hcg : cacheGet (cacheDel s.cache (h.dataPath ++ item))
                (h.dataPath ++ item) = none :=
              cacheGet_cacheDel_self s.cache (h.dataPath ++ item)
            simp [Handle.get, Handle.getCached, hkp2, hne2, Handle.internalGetCached, hcg,
              Handle.internalGetMiss, Handle.internalGetDirect, hfind, hstat, hdecfile,
              finalIncludeCheck]

/-- A destination that exists as an *empty* directory can be the ancestor of
no existing path; in particular the source can only lie below it if it *is*
it. -/
theorem not_leadsTo_of_empty_dst {root : Node} {srcP dstP : Key} {sts std : Nat}
    {css : List (String × Node)}
    (hsrc : root.find? srcP = some (.dir sts css))
    (hdst : root.find? dstP = some (.dir std []))
    (hnsd : ¬ leadsTo srcP dstP) : ¬ leadsTo dstP srcP := by
  intro hcon
  have heq := eq_append_drop_of_leadsTo hcon
  cases hrest : srcP.drop dstP.length with
  | nil =>
    rw [hrest, List.append_nil] at heq
    exact hnsd (by rw [heq]; exact leadsTo_refl dstP)
  | cons x xs =>
    rw [hrest] at heq
    rw [heq, Node.find?_append, hdst] at hsrc
    simp [Node.find?_cons_dir, lookupChild] at hsrc

/-- After removing an existing destination, `makedirs` on its parent is a
no-op: every strict ancestor still exists as a directory. -/
theorem makedirs_dropLast_noop {root r : Node} {p : Key} (clk : Nat)
    (hrm : root.removeAt p = some r) (hne : p ≠ []) :
    r.makedirs p.dropLast clk = some r := by
  apply Node.makedirs_noop
  intro i hi
  have hlen : 1 ≤ p.length := by
    cases p with
    | nil => exact absurd rfl hne
    | cons a b => simp
  rw [List.length_dropLast] at hi
  have hi2 : i < p.length := by omega
  have htake : p.dropLast.take i = p.take i := by
    rw [List.dropLast_eq_take, List.take_take, min_eq_left (by omega)]
  rw [htake]
  exact Node.removeAt_ancestors hrm i hi2

/-- C1 (witness): a concrete `put(("a","b"), 5)` on an empty store followed
by `get(("a","b"))` returns `5`; the on-disk bytes are the compressed
encoding `[9, 0, 5]` (level header, tag, payload). -/
theorem C1_witness :
    ((["a", "b"] : Key) ≠ []) ∧
    hc.internalPut testEnv ⟨10, fsEmpty, []⟩ ["a", "b"] (.value (.int 5)) false
      = .ok ⟨11, .dir 0 [("store", .dir 1 [("a", .dir 10 [("b", .file 10 [9, 0, 5])])])], []⟩ ∧
    (testEnv.engineFor hc).dec ((testEnv.engineFor hc).enc (.int 5)) = some (.int 5) ∧
    testEnv.decomp (testEnv.comp hc.compressLevel ((testEnv.engineFor hc).enc (.int 5)))
      = some ((testEnv.engineFor hc).enc (.int 5)) ∧
    hc.get testEnv (Node.dir 0 [("store", .dir 1 [("a", .dir 10 [("b", .file 10 [9, 0, 5])])])])
        [] ["a", "b"]
      = (.ok (.value (.int 5)), [(["store", "a", "b"], 10, .value (.int 5))]) := by
  refine ⟨by decide, rfl, rfl, rfl, ?_⟩
  have hmain := C1_put_get_roundtrip hc testEnv ⟨10, fsEmpty, []⟩
    ⟨11, .dir 0 [("store", .dir 1 [("a", .dir 10 [("b", .file 10 [9, 0, 5])])])], []⟩
    ["a", "b"] (.int 5) (by decide) rfl rfl rfl
  exact hmain.2.trans (by rfl)

end NDFS
